import Mathlib

/-!
Shallow embedding of the text-chunking and summary-assembly core of the
audio/text summarizer application (files `ai.py` and `ai_test.py`), together
with its error-handling wrappers (`transcribe_audio`, `summarize_text`,
`send_email`).

Python strings are Lean `String`s; Python lists are Lean `List`s; the
external ML models and the SMTP transport are function parameters; a Python
call that may raise is a function into `Except String _`.
-/

namespace Lumio

/-- Embedding of Python `str.split()` (no argument): split on runs of
whitespace, producing no empty tokens.  Auxiliary loop: `acc` holds the
characters of the current word, reversed. -/
def wordsAux : List Char → List Char → List String
  | acc, [] => if acc = [] then [] else [String.mk acc.reverse]
  | acc, c :: cs =>
    if c.isWhitespace then
      if acc = [] then wordsAux [] cs
      else String.mk acc.reverse :: wordsAux [] cs
    else
      wordsAux (c :: acc) cs

/-- Python `text.split()`. -/
def pySplit (text : String) : List String :=
  wordsAux [] text.data

/-- Embedding of Python `sep.join(list)`. -/
def pyJoin (sep : String) : List String → String
  | [] => ""
  | [x] => x
  | x :: y :: xs => x ++ sep ++ pyJoin sep (y :: xs)

/-- Embedding of Python `s.strip()`: drop leading and trailing whitespace. -/
def pyStrip (s : String) : String :=
  String.mk (((s.data.dropWhile Char.isWhitespace).reverse.dropWhile Char.isWhitespace).reverse)

/-- The loop body of `chunk_text` (`ai.py` lines 96–111, duplicated in
`ai_test.py` lines 80–94): accumulate words into `current`, incrementing
`tokens` per word, and emit `" ".join(current)` whenever `tokens ≥
max_tokens`; a non-empty leftover is emitted at the end. -/
def chunkTextAux (max_tokens : Nat) : List String → List String → Nat → List String
  | [], current, _tokens =>
    if current = [] then [] else [pyJoin " " current]
  | w :: ws, current, tokens =>
    let tokens := tokens + 1
    let current := current ++ [w]
    if max_tokens ≤ tokens then
      pyJoin " " current :: chunkTextAux max_tokens ws [] 0
    else
      chunkTextAux max_tokens ws current tokens

/-- `chunk_text(text, max_tokens)` from `ai.py` / `ai_test.py`. -/
def chunk_text (text : String) (max_tokens : Nat) : List String :=
  chunkTextAux max_tokens (pySplit text) [] 0

/-- Whitespace normalization as described by the spec: words joined by
single spaces, leading/trailing whitespace removed. -/
def normalize_whitespace (s : String) : String :=
  pyJoin " " (pySplit s)

/-- Embedding of Python `re.split(r'(?<=[.!?]) +', s)` (`ai.py` line 137):
scan left to right; at each occurrence of `'.'`, `'!'` or `'?'` immediately
followed by at least one space, end the current fragment after the
punctuation character and drop the maximal run of spaces.  `acc` holds the
current fragment's characters, reversed; `skipping` is true while inside
the run of spaces that follows a match. -/
def splitSentencesAux : Bool → List Char → List Char → List String
  | _skipping, acc, [] => [String.mk acc.reverse]
  | skipping, acc, c :: rest =>
    if skipping ∧ c = ' ' then
      splitSentencesAux true acc rest
    else if (c = '.' ∨ c = '!' ∨ c = '?') ∧ rest.head? = some ' ' then
      String.mk (c :: acc).reverse :: splitSentencesAux true [] rest
    else
      splitSentencesAux false (c :: acc) rest

/-- `re.split(r'(?<=[.!?]) +', s)` on a whole string. -/
def splitSentences (s : String) : List String :=
  splitSentencesAux false [] s.data

/-- The bullet-formatting branch of `summarize_text` (`ai.py` lines
136–139): split the combined summary into sentences, keep those whose
stripped length exceeds 20, and join them one per line, each prefixed with
the bullet marker. -/
def bulletize (combined_summary : String) : String :=
  let sentences := splitSentences combined_summary
  pyJoin "\n" ((sentences.filter (fun s => 20 < (pyStrip s).length)).map
    (fun s => "• " ++ pyStrip s))

/-- The per-chunk summarization loop of `summarize_text` (`ai.py` lines
121–133), instrumented with a call trace: the first component collects the
partial summaries in order, the second records the argument of each call to
`summarize_one`, in call order. -/
def summarizeLoop (summarize_one : String → String) : List String → List String × List String
  | [] => ([], [])
  | chunk :: rest =>
    let s := summarize_one chunk
    let r := summarizeLoop summarize_one rest
    (s :: r.1, chunk :: r.2)

/-- The post-chunking part of `summarize_text` (`ai.py` lines 121–140) with
the external summarization model abstracted as `summarize_one`. -/
def assemble (text_chunks : List String) (summarize_one : String → String)
    (bullet_style : Bool) : String :=
  let summary_chunks := (summarizeLoop summarize_one text_chunks).1
  let combined_summary := pyJoin " " summary_chunks
  if bullet_style then bulletize combined_summary else combined_summary

/-- `transcribe_audio` (`ai.py` lines 82–94).  The Whisper model is `none`
when loading failed (Python `if not whisper_model`); a per-call failure of
the model is an `Except.error`. -/
def transcribe_audio (whisper_model : Option (String → Except String String))
    (audio_path : String) : String :=
  match whisper_model with
  | none => "[ERROR: Whisper model not loaded]"
  | some model =>
    match model audio_path with
    | Except.ok t => t
    | Except.error _ => "[ERROR: Transcription failed]"

/-- The summarizer loop of `summarize_text` when each model call may raise:
the first raised exception aborts the loop. -/
def summarizeChunksE (summarizer : String → Except String String) :
    List String → Except String (List String)
  | [] => Except.ok []
  | chunk :: rest =>
    match summarizer chunk with
    | Except.error e => Except.error e
    | Except.ok s =>
      match summarizeChunksE summarizer rest with
      | Except.error e => Except.error e
      | Except.ok tl => Except.ok (s :: tl)

/-- `summarize_text` (`ai.py` lines 113–142): not-loaded guard, per-chunk
summarization over `chunk_text(text, 800)` inside a try block whose
exception handler returns `"[ERROR: Summarization failed] " + e`, then
joining and optional bullet formatting. -/
def summarize_text (summarizer : Option (String → Except String String))
    (text : String) (bullet_style : Bool) : String :=
  match summarizer with
  | none => "[ERROR: Summarization model not loaded]"
  | some f =>
    match summarizeChunksE f (chunk_text text 800) with
    | Except.error e => "[ERROR: Summarization failed] " ++ e
    | Except.ok summary_chunks =>
      let combined_summary := pyJoin " " summary_chunks
      if bullet_style then bulletize combined_summary else combined_summary

/-- Python truthiness of an optional string: `None` and `""` are falsy. -/
def pyTruthy : Option String → Bool
  | none => false
  | some s => !(s == "")

/-- `send_email` (`ai.py` lines 144–165).  The SMTP transport is the
function parameter `smtp` (sender, password, recipient, subject, body);
the second component of the result records whether an SMTP connection was
attempted. -/
def send_email (sender_email sender_pass : Option String)
    (smtp : String → String → String → String → String → Except String Unit)
    (recipient subject body : String) : Bool × Bool :=
  if !(pyTruthy sender_email) || !(pyTruthy sender_pass) then
    (false, false)
  else
    match smtp (sender_email.getD "") (sender_pass.getD "") recipient subject body with
    | Except.ok _ => (true, true)
    | Except.error _ => (false, true)

/-- Spec-side description of the chunker, following the spec's words: the
chunk word groups are the consecutive groups of `max_tokens` words of the
document, the last group possibly shorter. -/
def greedyGroups (max_tokens : Nat) : List String → List (List String)
  | [] => []
  | w :: ws =>
    (w :: ws.take (max_tokens - 1)) :: greedyGroups max_tokens (ws.drop (max_tokens - 1))
termination_by l => l.length
decreasing_by
  simp only [List.length_drop, List.length_cons]
  omega

/-- The chunker loop at the level of word groups: same control flow as
`chunkTextAux`, collecting each chunk's word list instead of the joined
string. -/
def chunkGroups (max_tokens : Nat) : List String → List String → Nat → List (List String)
  | [], current, _tokens => if current = [] then [] else [current]
  | w :: ws, current, tokens =>
    if max_tokens ≤ tokens + 1 then
      (current ++ [w]) :: chunkGroups max_tokens ws [] 0
    else
      chunkGroups max_tokens ws (current ++ [w]) (tokens + 1)

/-- Sentence-terminal punctuation, as in the regex character class `[.!?]`. -/
def termPunct (c : Char) : Prop := c = '.' ∨ c = '!' ∨ c = '?'

instance (c : Char) : Decidable (termPunct c) :=
  inferInstanceAs (Decidable (c = '.' ∨ c = '!' ∨ c = '?'))

/-- No sentence-split point strictly inside the character list: no
terminal-punctuation character immediately followed by a space. -/
def sentenceBody : List Char → Prop
  | [] => True
  | [_] => True
  | c :: c2 :: rest => ¬((c = '.' ∨ c = '!' ∨ c = '?') ∧ c2 = ' ') ∧ sentenceBody (c2 :: rest)

instance sentenceBodyDec : ∀ l : List Char, Decidable (sentenceBody l)
  | [] => isTrue trivial
  | [_] => isTrue trivial
  | c :: c2 :: rest =>
    haveI := sentenceBodyDec (c2 :: rest)
    inferInstanceAs (Decidable (¬((c = '.' ∨ c = '!' ∨ c = '?') ∧ c2 = ' ') ∧
      sentenceBody (c2 :: rest)))

/-- The last character of the string is sentence-terminal punctuation. -/
def lastIsTerm (s : String) : Prop :=
  match s.data.getLast? with
  | some c => termPunct c
  | none => False

instance (s : String) : Decidable (lastIsTerm s) := by
  unfold lastIsTerm
  match s.data.getLast? with
  | some c => exact inferInstanceAs (Decidable (termPunct c))
  | none => exact inferInstanceAs (Decidable False)

/-- A "sentence" with respect to the splitting heuristic of `bulletize`:
non-empty, ending in `.`, `!` or `?`, not starting with a space, and with
no split point inside.  The sentence splitter recovers exactly such
sentences from their single-space-separated join. -/
def cleanSentence (s : String) : Prop :=
  s.data ≠ [] ∧ lastIsTerm s ∧ s.data.head? ≠ some ' ' ∧ sentenceBody s.data

instance (s : String) : Decidable (cleanSentence s) :=
  inferInstanceAs (Decidable (_ ∧ _ ∧ _ ∧ _))

/-- Proof-side device: processing the characters of `cs` (followed by
`tail`) triggers no split inside `cs`. -/
def noSplitAt : List Char → List Char → Prop
  | [], _ => True
  | c :: cs, tail =>
    ¬((c = '.' ∨ c = '!' ∨ c = '?') ∧ (cs ++ tail).head? = some ' ') ∧ noSplitAt cs tail

example : pySplit "  a  b c " = ["a", "b", "c"] := by decide
example : chunk_text "a b c d" 2 = ["a b", "c d"] := by decide
example : chunk_text "a b c" 100 = ["a b c"] := by decide
example : chunk_text "   " 5 = [] := by decide
example : pyStrip "  a b  " = "a b" := by decide
example : splitSentences "One two three. Four five!  Six" = ["One two three.", "Four five!", "Six"] := by decide
example : splitSentences "" = [""] := by decide
example : (greedyGroups 2 ["a", "b", "c", "d"]) = [["a", "b"], ["c", "d"]] := by
  simp [greedyGroups]
example : assemble ["x"] (fun _ => "Summary one.") false = "Summary one." := by decide

/-! ### Lemmas about `pyJoin` -/

theorem pyJoin_cons_cons (sep x y : String) (zs : List String) :
    pyJoin sep (x :: y :: zs) = x ++ sep ++ pyJoin sep (y :: zs) := rfl

theorem pyJoin_append (sep : String) (l1 l2 : List String) (h1 : l1 ≠ []) (h2 : l2 ≠ []) :
    pyJoin sep (l1 ++ l2) = pyJoin sep l1 ++ sep ++ pyJoin sep l2 := by
  induction l1 with
  | nil => exact absurd rfl h1
  | cons x xs ih =>
    cases xs with
    | nil =>
      cases l2 with
      | nil => exact absurd rfl h2
      | cons y ys => rfl
    | cons y ys =>
      have hys : (y :: ys : List String) ≠ [] := by simp
      have step := ih hys
      simp only [List.cons_append] at step ⊢
      rw [pyJoin_cons_cons, pyJoin_cons_cons, step]
      simp [String.append_assoc]

theorem pyJoin_map_pyJoin (gs : List (List String)) (h : ∀ g ∈ gs, g ≠ []) :
    pyJoin " " (gs.map (pyJoin " ")) = pyJoin " " gs.flatten := by
  induction gs with
  | nil => rfl
  | cons g gs ih =>
    cases gs with
    | nil => simp [pyJoin]
    | cons g2 gs2 =>
      have hg : g ≠ [] := h g (by simp)
      have hg2 : g2 ≠ [] := h g2 (by simp)
      have hj : ((g2 :: gs2).flatten) ≠ [] := by
        simp only [List.flatten_cons]
        intro hcontra
        exact hg2 (List.append_eq_nil.mp hcontra).1
      have ih2 := ih (fun x hx => h x (by simp [hx]))
      rw [List.map_cons, List.map_cons, pyJoin_cons_cons, ← List.map_cons, ih2]
      conv_rhs => rw [List.flatten_cons]
      rw [pyJoin_append " " g ((g2 :: gs2).flatten) hg hj]

/-! ### Lemmas about `chunkGroups` -/

theorem chunkTextAux_eq_groups (mt : Nat) (ws : List String) :
    ∀ (current : List String) (t : Nat),
      chunkTextAux mt ws current t = (chunkGroups mt ws current t).map (pyJoin " ") := by
  induction ws with
  | nil =>
    intro current t
    by_cases h : current = [] <;> simp [chunkTextAux, chunkGroups, h]
  | cons w ws ih =>
    intro current t
    by_cases h : mt ≤ t + 1 <;> simp [chunkTextAux, chunkGroups, h, ih]

theorem chunkGroups_join (mt : Nat) (ws : List String) :
    ∀ (current : List String) (t : Nat),
      (chunkGroups mt ws current t).flatten = current ++ ws := by
  induction ws with
  | nil =>
    intro current t
    by_cases h : current = [] <;> simp [chunkGroups, h]
  | cons w ws ih =>
    intro current t
    by_cases h : mt ≤ t + 1 <;> simp [chunkGroups, h, ih]

theorem chunkGroups_ne_nil (mt : Nat) (ws : List String) :
    ∀ (current : List String) (t : Nat), ∀ g ∈ chunkGroups mt ws current t, g ≠ [] := by
  induction ws with
  | nil =>
    intro current t g hg
    by_cases h : current = [] <;> simp [chunkGroups, h] at hg
    simp [hg, h]
  | cons w ws ih =>
    intro current t g hg
    by_cases h : mt ≤ t + 1 <;> simp only [chunkGroups, if_pos, if_neg, h, ite_true,
      ite_false, List.mem_cons] at hg
    · rcases hg with hg | hg
      · simp [hg]
      · exact ih [] 0 g hg
    · exact ih (current ++ [w]) (t + 1) g hg

theorem chunkGroups_mem_words (mt : Nat) (ws : List String) :
    ∀ (current : List String) (t : Nat), ∀ g ∈ chunkGroups mt ws current t,
      ∀ w ∈ g, w ∈ current ++ ws := by
  induction ws with
  | nil =>
    intro current t g hg w hw
    by_cases h : current = [] <;> simp [chunkGroups, h] at hg
    subst hg
    simp [hw]
  | cons v ws ih =>
    intro current t g hg w hw
    by_cases h : mt ≤ t + 1 <;> simp only [chunkGroups, h, ite_true, ite_false,
      List.mem_cons] at hg
    · rcases hg with hg | hg
      · subst hg
        rcases List.mem_append.mp hw with h1 | h1
        · exact List.mem_append.mpr (Or.inl h1)
        · simp only [List.mem_singleton] at h1
          simp [h1]
      · have := ih [] 0 g hg w hw
        simp only [List.nil_append] at this
        simp [this]
    · have h2 := ih (current ++ [v]) (t + 1) g hg w hw
      rcases List.mem_append.mp h2 with h3 | h3
      · rcases List.mem_append.mp h3 with h4 | h4
        · simp [h4]
        · simp only [List.mem_singleton] at h4
          simp [h4]
      · simp [h3]

theorem chunkGroups_length_le (mt : Nat) (ws : List String) :
    ∀ (current : List String), current.length < mt →
      ∀ g ∈ chunkGroups mt ws current current.length, g.length ≤ mt := by
  induction ws with
  | nil =>
    intro current hlt g hg
    by_cases h : current = [] <;> simp [chunkGroups, h] at hg
    subst hg
    exact Nat.le_of_lt hlt
  | cons w ws ih =>
    intro current hlt g hg
    by_cases h : mt ≤ current.length + 1 <;> simp only [chunkGroups, h, ite_true,
      ite_false, List.mem_cons] at hg
    · rcases hg with hg | hg
      · subst hg
        simp only [List.length_append, List.length_cons, List.length_nil]
        omega
      · have h0 : (0 : Nat) < mt := Nat.lt_of_le_of_lt (Nat.zero_le _) hlt
        exact ih [] h0 g hg
    · have hlt2 : (current ++ [w]).length < mt := by
        simp only [List.length_append, List.length_cons, List.length_nil]
        omega
      have := ih (current ++ [w]) hlt2 g
      simp only [List.length_append, List.length_cons, List.length_nil] at this
      exact this hg

/-! ### Lemmas about `wordsAux` and `pySplit` -/

/-- A word as produced by `pySplit`: non-empty and whitespace-free. -/
def noWhitespaceWord (w : String) : Prop :=
  w.data ≠ [] ∧ ∀ c ∈ w.data, c.isWhitespace = false

theorem wordsAux_nonws_append (cs : List Char) (h : ∀ c ∈ cs, c.isWhitespace = false) :
    ∀ (acc rest : List Char), wordsAux acc (cs ++ rest) = wordsAux (cs.reverse ++ acc) rest := by
  induction cs with
  | nil => intro acc rest; simp
  | cons c cs ih =>
    intro acc rest
    have hc : c.isWhitespace = false := h c (by simp)
    have hcs : ∀ x ∈ cs, x.isWhitespace = false := fun x hx => h x (by simp [hx])
    simp only [List.cons_append, wordsAux, hc, Bool.false_eq_true, if_false]
    rw [show (cs.append rest) = cs ++ rest from rfl, ih hcs]
    simp [List.append_assoc]

theorem wordsAux_space (acc rest : List Char) :
    wordsAux acc (' ' :: rest) =
      if acc = [] then wordsAux [] rest else String.mk acc.reverse :: wordsAux [] rest := rfl

theorem wordsAux_words_ok (cs : List Char) :
    ∀ (acc : List Char), (∀ c ∈ acc, c.isWhitespace = false) →
      ∀ w ∈ wordsAux acc cs, noWhitespaceWord w := by
  induction cs with
  | nil =>
    intro acc hacc w hw
    by_cases h : acc = [] <;> simp [wordsAux, h] at hw
    subst hw
    refine ⟨by simp [h], ?_⟩
    intro c hc
    simp only [String.mk] at hc
    exact hacc c (List.mem_reverse.mp hc)
  | cons c cs ih =>
    intro acc hacc w hw
    by_cases h : c.isWhitespace = true
    · simp only [wordsAux, h, if_true] at hw
      by_cases h2 : acc = []
      · simp only [h2, if_true, ite_true] at hw
        exact ih [] (by simp) w (by simpa [h2] using hw)
      · simp only [h2, if_false, ite_false] at hw
        rcases List.mem_cons.mp hw with h3 | h3
        · subst h3
          refine ⟨by simp [h2], ?_⟩
          intro d hd
          simp only [String.mk] at hd
          exact hacc d (List.mem_reverse.mp hd)
        · exact ih [] (by simp) w h3
    · have hc : c.isWhitespace = false := by
        cases hcw : c.isWhitespace
        · rfl
        · exact absurd hcw h
      simp only [wordsAux, hc, Bool.false_eq_true, if_false] at hw
      refine ih (c :: acc) ?_ w hw
      intro d hd
      rcases List.mem_cons.mp hd with h3 | h3
      · subst h3; exact hc
      · exact hacc d h3

theorem pySplit_words_ok (s : String) : ∀ w ∈ pySplit s, noWhitespaceWord w :=
  wordsAux_words_ok s.data [] (by simp)

theorem string_data_append (s t : String) : (s ++ t).data = s.data ++ t.data := rfl

theorem pySplit_single (w : String) (h : noWhitespaceWord w) : pySplit w = [w] := by
  obtain ⟨hne, hnw⟩ := h
  show wordsAux [] w.data = [w]
  have step := wordsAux_nonws_append w.data hnw [] []
  simp only [List.append_nil] at step
  rw [step]
  simp only [wordsAux, List.reverse_eq_nil_iff, hne, if_false, List.reverse_reverse]

theorem pySplit_pyJoin (g : List String) (h : ∀ w ∈ g, noWhitespaceWord w) :
    pySplit (pyJoin " " g) = g := by
  induction g with
  | nil => rfl
  | cons w g ih =>
    cases g with
    | nil => exact pySplit_single w (h w (by simp))
    | cons w2 g2 =>
      obtain ⟨hne, hnw⟩ := h w (by simp)
      have ih2 := ih (fun x hx => h x (by simp [hx]))
      show wordsAux [] (pyJoin " " (w :: w2 :: g2)).data = w :: w2 :: g2
      rw [pyJoin_cons_cons]
      have hdata : (w ++ " " ++ pyJoin " " (w2 :: g2)).data =
          w.data ++ (' ' :: (pyJoin " " (w2 :: g2)).data) := by
        rw [string_data_append, string_data_append, List.append_assoc]
        rfl
      rw [hdata, wordsAux_nonws_append w.data hnw [] _, List.append_nil, wordsAux_space]
      simp only [List.reverse_eq_nil_iff, hne, if_false, List.reverse_reverse]
      show w :: pySplit (pyJoin " " (w2 :: g2)) = w :: w2 :: g2
      rw [ih2]

theorem wordsAux_all_ws (cs : List Char) (h : ∀ c ∈ cs, c.isWhitespace = true) :
    wordsAux [] cs = [] := by
  induction cs with
  | nil => rfl
  | cons c cs ih =>
    have hc := h c (by simp)
    simp only [wordsAux, hc, if_true, ite_true]
    exact ih (fun x hx => h x (by simp [hx]))

theorem pySplit_of_pyStrip_empty (c : String) (h : pyStrip c = "") : pySplit c = [] := by
  have hdata : (((c.data.dropWhile Char.isWhitespace).reverse.dropWhile
      Char.isWhitespace).reverse) = [] := congrArg String.data h
  rw [List.reverse_eq_nil_iff] at hdata
  have hall2 : ∀ x ∈ c.data.dropWhile Char.isWhitespace, x.isWhitespace = true := by
    intro x hx
    exact List.dropWhile_eq_nil_iff.mp hdata x (List.mem_reverse.mpr hx)
  have hall : ∀ x ∈ c.data, x.isWhitespace = true := by
    intro x hx
    rw [← List.takeWhile_append_dropWhile (p := Char.isWhitespace) (l := c.data)] at hx
    rcases List.mem_append.mp hx with h1 | h1
    · exact List.mem_takeWhile_imp h1
    · exact hall2 x h1
  exact wordsAux_all_ws c.data hall

/-! ### Claim theorems: the chunker -/

/-- C1: for every input string `s` and every `max_tokens ≥ 1`, joining the
chunks of `chunk_text s max_tokens` with single spaces equals `s` with its
whitespace normalized, and the chunks' word lists concatenate, in order, to
the document's word list — the chunks partition the words with no overlap
and no gaps. -/
theorem chunk_text_join_roundtrip (s : String) (mt : Nat) (_h : 1 ≤ mt) :
    pyJoin " " (chunk_text s mt) = normalize_whitespace s ∧
      ((chunk_text s mt).map pySplit).flatten = pySplit s := by
  have hgroups : chunk_text s mt = (chunkGroups mt (pySplit s) [] 0).map (pyJoin " ") :=
    chunkTextAux_eq_groups mt (pySplit s) [] 0
  constructor
  · rw [hgroups, pyJoin_map_pyJoin _ (chunkGroups_ne_nil mt (pySplit s) [] 0),
      chunkGroups_join mt (pySplit s) [] 0]
    rfl
  · rw [hgroups, List.map_map]
    have hmap : (chunkGroups mt (pySplit s) [] 0).map (pySplit ∘ pyJoin " ")
        = (chunkGroups mt (pySplit s) [] 0).map id := by
      apply List.map_congr_left
      intro g hg
      simp only [Function.comp_apply, id_eq]
      apply pySplit_pyJoin
      intro w hw
      have hmem := chunkGroups_mem_words mt (pySplit s) [] 0 g hg w hw
      simp only [List.nil_append] at hmem
      exact pySplit_words_ok s w hmem
    rw [hmap, List.map_id, chunkGroups_join mt (pySplit s) [] 0]
    simp

theorem chunk_text_join_roundtrip_witness :
    1 ≤ 2 ∧ (pyJoin " " (chunk_text " hello  world again " 2) =
        normalize_whitespace " hello  world again " ∧
      ((chunk_text " hello  world again " 2).map pySplit).flatten =
        pySplit " hello  world again ") :=
  ⟨by decide, chunk_text_join_roundtrip " hello  world again " 2 (by decide)⟩

/-- C2: for every input string and every `max_tokens ≥ 1`, every chunk
returned by `chunk_text` has at most `max_tokens` whitespace-separated
words. -/
theorem chunk_text_word_count_le (s : String) (mt : Nat) (h : 1 ≤ mt) :
    ∀ c ∈ chunk_text s mt, (pySplit c).length ≤ mt := by
  intro c hc
  rw [show chunk_text s mt = (chunkGroups mt (pySplit s) [] 0).map (pyJoin " ") from
    chunkTextAux_eq_groups mt (pySplit s) [] 0] at hc
  obtain ⟨g, hg, rfl⟩ := List.mem_map.mp hc
  have hwords : ∀ w ∈ g, noWhitespaceWord w := fun w hw =>
    pySplit_words_ok s w (by simpa using chunkGroups_mem_words mt (pySplit s) [] 0 g hg w hw)
  rw [pySplit_pyJoin g hwords]
  exact chunkGroups_length_le mt (pySplit s) [] (by simpa using h) g hg

theorem chunk_text_word_count_le_witness :
    1 ≤ 2 ∧ (pySplit "a b").length ≤ 2 :=
  ⟨by decide, chunk_text_word_count_le "a b c" 2 (by decide) "a b" (by decide)⟩

/-- C10: for every input string and every `max_tokens ≥ 1`, every chunk
returned by `chunk_text` is a non-empty string with at least one word and a
non-empty `strip()`; hence the `if not chunk.strip(): continue` guard in
`ai_test.py`'s summarize loop can never fire on chunks of `chunk_text`. -/
theorem chunk_text_chunks_nonempty (s : String) (mt : Nat) (_h : 1 ≤ mt) :
    ∀ c ∈ chunk_text s mt, c ≠ "" ∧ pySplit c ≠ [] ∧ pyStrip c ≠ "" := by
  intro c hc
  rw [show chunk_text s mt = (chunkGroups mt (pySplit s) [] 0).map (pyJoin " ") from
    chunkTextAux_eq_groups mt (pySplit s) [] 0] at hc
  obtain ⟨g, hg, rfl⟩ := List.mem_map.mp hc
  have hwords : ∀ w ∈ g, noWhitespaceWord w := fun w hw =>
    pySplit_words_ok s w (by simpa using chunkGroups_mem_words mt (pySplit s) [] 0 g hg w hw)
  have hrec : pySplit (pyJoin " " g) = g := pySplit_pyJoin g hwords
  have hgne : g ≠ [] := chunkGroups_ne_nil mt (pySplit s) [] 0 g hg
  refine ⟨?_, ?_, ?_⟩
  · intro hempty
    apply hgne
    rw [← hrec, hempty]
    rfl
  · rw [hrec]; exact hgne
  · intro hstrip
    have hnil := pySplit_of_pyStrip_empty _ hstrip
    rw [hrec] at hnil
    exact hgne hnil

theorem chunk_text_chunks_nonempty_witness :
    1 ≤ 2 ∧ ("a b" ≠ "" ∧ pySplit "a b" ≠ [] ∧ pyStrip "a b" ≠ "") :=
  ⟨by decide, chunk_text_chunks_nonempty "a b c" 2 (by decide) "a b" (by decide)⟩

theorem chunkGroups_single (mt : Nat) (ws : List String) :
    ∀ current : List String, current.length + ws.length ≤ mt → current ++ ws ≠ [] →
      chunkGroups mt ws current current.length = [current ++ ws] := by
  induction ws with
  | nil =>
    intro current hle hne
    simp only [List.append_nil] at hne ⊢
    simp [chunkGroups, hne]
  | cons w ws ih =>
    intro current hle hne
    by_cases h : mt ≤ current.length + 1
    · have hws : ws = [] := by
        have h1 : current.length + (ws.length + 1) ≤ mt := by simpa using hle
        have h2 : ws.length = 0 := by omega
        exact List.length_eq_zero.mp h2
      subst hws
      simp [chunkGroups, h]
    · have hle2 : (current ++ [w]).length + ws.length ≤ mt := by
        simp only [List.length_append, List.length_cons, List.length_nil]
        simp only [List.length_cons] at hle
        omega
      have hsingle := ih (current ++ [w]) hle2 (by simp)
      simp only [List.length_append, List.length_cons, List.length_nil] at hsingle
      simp only [chunkGroups, h, ite_false, if_false]
      rw [show current.length + 0 + 1 = current.length + 1 from by omega] at hsingle
      rw [hsingle]
      simp

/-- C4: edge cases of `chunk_text` for `max_tokens ≥ 1`: an input with no
words (empty or all-whitespace) yields the empty sequence; a non-empty
input with at most `max_tokens` words yields exactly one chunk, the
whitespace normalization of the whole input; `chunk_text "a b c" 100 =
["a b c"]`. -/
theorem chunk_text_edge_cases :
    (∀ (s : String) (mt : Nat), 1 ≤ mt → pySplit s = [] → chunk_text s mt = []) ∧
    (∀ (s : String) (mt : Nat), 1 ≤ mt → pySplit s ≠ [] → (pySplit s).length ≤ mt →
      chunk_text s mt = [normalize_whitespace s]) ∧
    chunk_text "a b c" 100 = ["a b c"] := by
  refine ⟨?_, ?_, by decide⟩
  · intro s mt _ hempty
    show chunkTextAux mt (pySplit s) [] 0 = []
    rw [hempty]
    rfl
  · intro s mt _ hne hle
    show chunkTextAux mt (pySplit s) [] 0 = [normalize_whitespace s]
    rw [chunkTextAux_eq_groups]
    have hsingle := chunkGroups_single mt (pySplit s) [] (by simpa using hle)
      (by simpa using hne)
    simp only [List.length_nil] at hsingle
    rw [hsingle]
    simp [normalize_whitespace]

theorem chunk_text_edge_cases_witness :
    (1 ≤ 5 ∧ chunk_text " \t " 5 = []) ∧
      (1 ≤ 5 ∧ chunk_text " a  b " 5 = [normalize_whitespace " a  b "]) :=
  ⟨⟨by decide, chunk_text_edge_cases.1 " \t " 5 (by decide) (by decide)⟩,
   ⟨by decide, chunk_text_edge_cases.2.1 " a  b " 5 (by decide) (by decide) (by decide)⟩⟩

theorem chunkGroups_eq_greedy (mt : Nat) (hmt : 1 ≤ mt) :
    ∀ (n : Nat) (ws : List String), ws.length ≤ n →
      (chunkGroups mt ws [] 0 = greedyGroups mt ws ∧
        ∀ current : List String, current ≠ [] → current.length < mt →
          chunkGroups mt ws current current.length =
            (current ++ ws.take (mt - current.length)) ::
              greedyGroups mt (ws.drop (mt - current.length))) := by
  intro n
  induction n with
  | zero =>
    intro ws hws
    have hnil : ws = [] := List.length_eq_zero.mp (Nat.le_zero.mp hws)
    subst hnil
    constructor
    · simp [chunkGroups, greedyGroups]
    · intro current hne hlt
      simp [chunkGroups, greedyGroups, hne]
  | succ n ih =>
    intro ws hws
    cases ws with
    | nil =>
      constructor
      · simp [chunkGroups, greedyGroups]
      · intro current hne hlt
        simp [chunkGroups, greedyGroups, hne]
    | cons w ws2 =>
      have hlen2 : ws2.length ≤ n := by
        simp only [List.length_cons] at hws
        omega
      constructor
      · rw [greedyGroups]
        by_cases h1 : mt ≤ 0 + 1
        · have hmt1 : mt = 1 := le_antisymm (by simpa using h1) hmt
          subst hmt1
          simp only [chunkGroups, h1, ite_true, if_true, List.nil_append]
          rw [(ih ws2 hlen2).1]
          simp
        · simp only [chunkGroups, h1, ite_false, if_false]
          have hG := (ih ws2 hlen2).2 [w] (by simp) (by simp; omega)
          simpa using hG
      · intro current hne hlt
        by_cases h1 : mt ≤ current.length + 1
        · have hmt1 : mt = current.length + 1 := le_antisymm h1 hlt
          simp only [chunkGroups, h1, ite_true, if_true]
          rw [(ih ws2 hlen2).1]
          have h2 : mt - current.length = 1 := by omega
          rw [h2]
          simp
        · have hlt2 : (current ++ [w]).length < mt := by
            simp only [List.length_append, List.length_cons, List.length_nil]
            omega
          have hG := (ih ws2 hlen2).2 (current ++ [w]) (by simp) hlt2
          simp only [List.length_append, List.length_cons, List.length_nil] at hG
          simp only [chunkGroups, h1, ite_false, if_false]
          rw [show current.length + 0 + 1 = current.length + 1 from by omega] at hG
          rw [hG]
          obtain ⟨k, hk⟩ : ∃ k, mt - current.length = k + 1 :=
            ⟨mt - current.length - 1, by omega⟩
          have hk2 : mt - (current.length + 1) = k := by omega
          rw [hk, hk2, List.take_succ_cons, List.drop_succ_cons]
          simp

/-- C3: `chunk_text` accumulates words greedily in input order, emitting a
chunk exactly when the accumulated word count reaches `max_tokens`: its
chunks are the consecutive `max_tokens`-word groups of the document (the
last group possibly shorter), each rejoined with single spaces; in
particular `chunk_text "a b c d" 2 = ["a b", "c d"]`. -/
theorem chunk_text_greedy :
    (∀ (s : String) (mt : Nat), 1 ≤ mt →
      chunk_text s mt = (greedyGroups mt (pySplit s)).map (pyJoin " ")) ∧
    chunk_text "a b c d" 2 = ["a b", "c d"] := by
  refine ⟨?_, by decide⟩
  intro s mt h
  rw [show chunk_text s mt = (chunkGroups mt (pySplit s) [] 0).map (pyJoin " ") from
    chunkTextAux_eq_groups mt (pySplit s) [] 0]
  rw [(chunkGroups_eq_greedy mt h (pySplit s).length (pySplit s) le_rfl).1]

theorem chunk_text_greedy_witness :
    1 ≤ 2 ∧ chunk_text "a b c d" 2 = (greedyGroups 2 (pySplit "a b c d")).map (pyJoin " ") :=
  ⟨by decide, chunk_text_greedy.1 "a b c d" 2 (by decide)⟩

/-! ### Claim theorems: summary assembly and error handling -/

theorem summarizeLoop_fst (f : String → String) :
    ∀ chunks : List String, (summarizeLoop f chunks).1 = chunks.map f := by
  intro chunks
  induction chunks with
  | nil => rfl
  | cons c cs ih => simp [summarizeLoop, ih]

theorem summarizeLoop_trace (f : String → String) :
    ∀ chunks : List String, (summarizeLoop f chunks).2 = chunks := by
  intro chunks
  induction chunks with
  | nil => rfl
  | cons c cs ih => simp [summarizeLoop, ih]

/-- C5: the summary assembly joins the per-chunk partial summaries with
single spaces into one combined string, and with `bullet_style = false`
returns that combined string unchanged; in particular a single chunk whose
partial summary is "Summary one." yields exactly "Summary one.". -/
theorem assemble_nonbullet_join :
    (∀ (chunks : List String) (f : String → String),
      assemble chunks f false = pyJoin " " (chunks.map f)) ∧
    assemble ["x"] (fun _ => "Summary one.") false = "Summary one." := by
  refine ⟨?_, by decide⟩
  intro chunks f
  show pyJoin " " ((summarizeLoop f chunks).1) = _
  rw [summarizeLoop_fst]

/-- C7: for every input text and chunk size, the summarization loop calls
`summarize_one` exactly once per chunk of `chunk_text`, in chunk order (its
call trace is exactly the chunk list), and the i-th partial summary it
collects is `summarize_one` applied to the i-th chunk. -/
theorem summarize_calls_per_chunk (text : String) (mt : Nat) (f : String → String) :
    (summarizeLoop f (chunk_text text mt)).2 = chunk_text text mt ∧
    (summarizeLoop f (chunk_text text mt)).1 = (chunk_text text mt).map f ∧
    ∀ i : Nat, ((summarizeLoop f (chunk_text text mt)).1)[i]? =
      ((chunk_text text mt)[i]?).map f := by
  refine ⟨summarizeLoop_trace f _, summarizeLoop_fst f _, ?_⟩
  intro i
  rw [summarizeLoop_fst, List.getElem?_map]

/-- C8: `transcribe_audio` and `summarize_text` never propagate a failure:
with no model loaded they return the bracketed not-loaded marker string,
and when a per-call model failure occurs they return a string prefixed with
the corresponding bracketed error marker instead of raising. -/
theorem error_wrappers_no_raise :
    (∀ path : String, transcribe_audio none path = "[ERROR: Whisper model not loaded]") ∧
    (∀ (m : String → Except String String) (path e : String),
      m path = Except.error e →
      transcribe_audio (some m) path = "[ERROR: Transcription failed]") ∧
    (∀ (text : String) (bs : Bool),
      summarize_text none text bs = "[ERROR: Summarization model not loaded]") ∧
    (∀ (f : String → Except String String) (text : String) (bs : Bool) (e : String),
      summarizeChunksE f (chunk_text text 800) = Except.error e →
      summarize_text (some f) text bs = "[ERROR: Summarization failed] " ++ e) := by
  refine ⟨fun _ => rfl, ?_, fun _ _ => rfl, ?_⟩
  · intro m path e hm
    simp [transcribe_audio, hm]
  · intro f text bs e hf
    simp [summarize_text, hf]

theorem error_wrappers_no_raise_witness :
    transcribe_audio (some (fun _ => Except.error "boom")) "x.wav" =
        "[ERROR: Transcription failed]" ∧
      summarize_text (some (fun _ => Except.error "boom")) "hello world" true =
        "[ERROR: Summarization failed] boom" :=
  ⟨error_wrappers_no_raise.2.1 (fun _ => Except.error "boom") "x.wav" "boom" rfl,
   error_wrappers_no_raise.2.2.2 (fun _ => Except.error "boom") "hello world" true "boom" rfl⟩

/-- C9: when the sender address or the sender password is absent (falsy),
`send_email` returns `False` without attempting any SMTP connection, for
every transport, recipient, subject and body. -/
theorem send_email_missing_credentials
    (se sp : Option String)
    (smtp : String → String → String → String → String → Except String Unit)
    (recipient subject body : String)
    (h : pyTruthy se = false ∨ pyTruthy sp = false) :
    send_email se sp smtp recipient subject body = (false, false) := by
  rcases h with h | h <;> simp [send_email, h]

theorem send_email_missing_credentials_witness :
    pyTruthy none = false ∧
      send_email none (some "pw") (fun _ _ _ _ _ => Except.ok ()) "r@example.com"
        "Your Summary" "body text" = (false, false) :=
  ⟨rfl, send_email_missing_credentials none (some "pw") (fun _ _ _ _ _ => Except.ok ())
    "r@example.com" "Your Summary" "body text" (Or.inl rfl)⟩

/-! ### The sentence splitter on clean sentences -/

theorem splitAux_no_split (cs : List Char) :
    ∀ (acc tail : List Char), noSplitAt cs tail →
      splitSentencesAux false acc (cs ++ tail) =
        splitSentencesAux false (cs.reverse ++ acc) tail := by
  induction cs with
  | nil => intro acc tail _; simp
  | cons c cs ih =>
    intro acc tail h
    obtain ⟨h1, h2⟩ := h
    simp only [List.cons_append, splitSentencesAux, List.append_eq]
    rw [if_neg (by simp), if_neg h1, ih (c :: acc) tail h2]
    simp [List.append_assoc]

theorem sentenceBody_noSplitAt (body : List Char) (lastc : Char) :
    ∀ tail2 : List Char, sentenceBody (body ++ [lastc]) → noSplitAt body (lastc :: tail2) := by
  induction body with
  | nil => intro tail2 _; trivial
  | cons c body ih =>
    intro tail2 h
    cases body with
    | nil =>
      obtain ⟨h1, _⟩ := h
      exact ⟨by simpa using h1, trivial⟩
    | cons c2 body2 =>
      obtain ⟨h1, h2⟩ := h
      exact ⟨by simpa using h1, ih tail2 h2⟩

theorem splitAux_skip_space (acc rest : List Char) :
    splitSentencesAux true acc (' ' :: rest) = splitSentencesAux true acc rest := by
  simp [splitSentencesAux]

theorem splitAux_skip_nonspace (acc rest : List Char) (c : Char) (hc : c ≠ ' ') :
    splitSentencesAux true acc (c :: rest) = splitSentencesAux false acc (c :: rest) := by
  simp [splitSentencesAux, hc]

theorem splitAux_one_sentence (s : String) (body : List Char) (lastc : Char)
    (hs : s.data = body ++ [lastc]) (hterm : termPunct lastc)
    (hbody : sentenceBody s.data) (rest2 : List Char) :
    splitSentencesAux false [] (s.data ++ (' ' :: rest2)) =
      s :: splitSentencesAux true [] rest2 := by
  have hnsp : noSplitAt body (lastc :: ' ' :: rest2) := by
    apply sentenceBody_noSplitAt
    rw [← hs]
    exact hbody
  rw [hs, List.append_assoc]
  rw [show ([lastc] ++ (' ' :: rest2) : List Char) = lastc :: ' ' :: rest2 from rfl]
  rw [splitAux_no_split body [] (lastc :: ' ' :: rest2) hnsp, List.append_nil]
  simp only [splitSentencesAux]
  rw [if_neg (by simp), if_pos ⟨hterm, by simp⟩, if_pos ⟨trivial, trivial⟩]
  congr 1
  have hrev : (lastc :: body.reverse).reverse = s.data := by
    rw [hs]
    simp
  rw [hrev]

theorem pyJoin_data_head (s : String) (ss : List String) :
    ∃ tl, (pyJoin " " (s :: ss)).data = s.data ++ tl := by
  cases ss with
  | nil =>
    exact ⟨[], (show (pyJoin " " [s]).data = s.data from rfl).trans (List.append_nil s.data).symm⟩
  | cons s2 ss2 =>
    refine ⟨(' ' :: (pyJoin " " (s2 :: ss2)).data), ?_⟩
    rw [pyJoin_cons_cons, string_data_append, string_data_append, List.append_assoc]
    rfl

theorem splitSentences_pyJoin (ss : List String) (hne : ss ≠ [])
    (hclean : ∀ s ∈ ss, cleanSentence s) :
    splitSentences (pyJoin " " ss) = ss := by
  induction ss with
  | nil => exact absurd rfl hne
  | cons s ss ih =>
    obtain ⟨hsne, hlast, _hhead, hbody⟩ := hclean s (by simp)
    obtain ⟨body, lastc, hs0⟩ := (List.eq_nil_or_concat s.data).resolve_left hsne
    have hs : s.data = body ++ [lastc] := by
      rw [hs0, List.concat_eq_append]
    have hterm : termPunct lastc := by
      unfold lastIsTerm at hlast
      rw [hs, List.getLast?_concat] at hlast
      exact hlast
    cases ss with
    | nil =>
      show splitSentencesAux false [] s.data = [s]
      rw [hs]
      have hnsp : noSplitAt body [lastc] := sentenceBody_noSplitAt body lastc [] (hs ▸ hbody)
      rw [splitAux_no_split body [] [lastc] hnsp, List.append_nil]
      simp only [splitSentencesAux]
      rw [if_neg (by simp), if_neg (by simp)]
      have hrev : (lastc :: body.reverse).reverse = s.data := by
        rw [hs]
        simp
      rw [hrev]
    | cons s2 ss2 =>
      obtain ⟨hsne2, _, hhead2, _⟩ := hclean s2 (by simp)
      show splitSentencesAux false [] (pyJoin " " (s :: s2 :: ss2)).data = s :: s2 :: ss2
      rw [pyJoin_cons_cons]
      have hdata : (s ++ " " ++ pyJoin " " (s2 :: ss2)).data =
          s.data ++ (' ' :: (pyJoin " " (s2 :: ss2)).data) := by
        rw [string_data_append, string_data_append, List.append_assoc]
        rfl
      rw [hdata, splitAux_one_sentence s body lastc hs hterm hbody _]
      congr 1
      obtain ⟨tl, htl⟩ := pyJoin_data_head s2 ss2
      have hJ : splitSentencesAux true [] (pyJoin " " (s2 :: ss2)).data =
          splitSentencesAux false [] (pyJoin " " (s2 :: ss2)).data := by
        cases hsd : s2.data with
        | nil => exact absurd hsd hsne2
        | cons c1 d =>
          rw [htl, hsd, List.cons_append]
          apply splitAux_skip_nonspace
          intro hc1
          rw [hsd] at hhead2
          apply hhead2
          rw [hc1]
          rfl
      rw [hJ]
      exact ih (by simp) (fun x hx => hclean x (by simp [hx]))

/-- C6 counterexample: the claim's reading fails on the code in two ways.
A fragment whose trimmed length is exactly 20 is *not* shorter than the
20-character threshold, yet the code discards it (the filter keeps only
length > 20), so the bulleted output is empty rather than one bulleted
line.  And a terminal-punctuation character followed by a tab (whitespace
but not a space) is *not* a split point for `re.split(r'(?<=[.!?]) +')`,
so the two sentences stay on a single bulleted line. -/
theorem assemble_bullet_cex :
    (pyStrip "abcdefghij abcdefgh.").length = 20 ∧
    assemble ["x"] (fun _ => "abcdefghij abcdefgh.") true = "" ∧
    assemble ["x"] (fun _ => "abcdefghij abcdefgh.") true ≠ "• abcdefghij abcdefgh." ∧
    assemble ["x"]
        (fun _ => "first long enough sentence.\tsecond long enough sentence.") true =
      "• first long enough sentence.\tsecond long enough sentence." ∧
    assemble ["x"]
        (fun _ => "first long enough sentence.\tsecond long enough sentence.") true ≠
      "• first long enough sentence.\n• second long enough sentence." := by
  refine ⟨by decide, by decide, by decide, by decide, by decide⟩

/-- C6 (amended): when `bullet_style` is true, the assembly splits the
combined summary into sentences at `.`, `!` or `?` followed by one or more
space characters (spaces only, not arbitrary whitespace), discards every
fragment whose trimmed length is at most 20 characters (keeping only those
strictly longer than 20), and returns the remaining sentences one per
line, each prefixed with the bullet marker and the trimmed sentence text;
a short fragment such as "Ok." is dropped from bulleted output but present
when `bullet_style` is false. -/
theorem assemble_bullet_amended :
    (∀ (chunks ss : List String) (f : String → String),
      ss ≠ [] → (∀ s ∈ ss, cleanSentence s) →
      pyJoin " " ((summarizeLoop f chunks).1) = pyJoin " " ss →
      assemble chunks f true =
        pyJoin "\n" ((ss.filter (fun s => 20 < (pyStrip s).length)).map
          (fun s => "• " ++ pyStrip s)) ∧
      assemble chunks f false = pyJoin " " ss) ∧
    assemble ["x"] (fun _ => "This is a long enough sentence. Ok.") true =
      "• This is a long enough sentence." ∧
    assemble ["x"] (fun _ => "This is a long enough sentence. Ok.") false =
      "This is a long enough sentence. Ok." := by
  refine ⟨?_, by decide, by decide⟩
  intro chunks ss f hne hclean hcomb
  constructor
  · show bulletize (pyJoin " " ((summarizeLoop f chunks).1)) = _
    rw [hcomb]
    unfold bulletize
    rw [splitSentences_pyJoin ss hne hclean]
  · show pyJoin " " ((summarizeLoop f chunks).1) = _
    exact hcomb

theorem assemble_bullet_amended_witness :
    assemble ["x", "y"]
        (fun c => if c = "x" then "This is sentence one about topics."
          else "This is sentence two about other things.") true =
      "• This is sentence one about topics.\n• This is sentence two about other things." := by
  have h := assemble_bullet_amended.1 ["x", "y"]
    ["This is sentence one about topics.", "This is sentence two about other things."]
    (fun c => if c = "x" then "This is sentence one about topics."
      else "This is sentence two about other things.")
    (by decide) (by decide) (by decide)
  exact h.1.trans (by decide)

end Lumio
